import Mathlib

set_option maxRecDepth 8000

/-! Verification of the string-parsing toolkit in src/parse.rs.

Strings are modelled as lists of characters; every input appearing in the
claims is ASCII, where Rust's byte indexing and character indexing
coincide. A Rust operation that can panic is modelled as an
Option-returning function, with `none` standing for the panic. Iterator
state (the remaining unscanned suffix held in `Ints.s` / `UInts.s` /
`Parser.inner`) is passed explicitly. -/

/-- Character class test from the local fn is_digit_or_sign inside
Ints::next: an ASCII digit or one of the sign bytes. -/
def is_digit_or_sign (ch : Char) : Bool :=
  ch.isDigit || ch == '-' || ch == '+'

/-- Embedding of Ints::next at the token level (parse.rs lines 498-522).
The outer while loop skipping bytes that are not digit-or-sign, and the
outer loop's continue, become the recursive calls on `rest`; the inner
while loop collecting the digit run starting at index i+1 becomes
takeWhile/dropWhile on `rest`.  The test on s.idx(j-1) (the last byte of
the candidate token) is the getLastD test; in its failing branch the
digit run is necessarily empty, so continuing from index j = i+1 is
continuing from `rest`.  Returns the token slice s[i..j] and the new
remaining suffix s[j..], or `none` (the iterator's None, which leaves
self.s untouched). -/
def ints_next_tok : List Char → Option (List Char × List Char)
  | [] => none
  | ch :: rest =>
    if is_digit_or_sign ch then
      let run := rest.takeWhile Char.isDigit
      if ((ch :: run).getLastD ' ').isDigit then
        some (ch :: run, rest.dropWhile Char.isDigit)
      else
        ints_next_tok rest
    else
      ints_next_tok rest

/-- Embedding of UInts::next at the token level (parse.rs lines 538-552):
skip to the first ASCII digit, then cut the maximal digit run. -/
def uints_next_tok : List Char → Option (List Char × List Char)
  | [] => none
  | ch :: rest =>
    if ch.isDigit then
      some (ch :: rest.takeWhile Char.isDigit, rest.dropWhile Char.isDigit)
    else
      uints_next_tok rest

/-- Decimal digit-run parsing: the digits-only core of Rust's FromStr for
integers. Accepts one or more ASCII digits and nothing else. -/
def parse_digits (l : List Char) : Option Nat :=
  if l.isEmpty then none
  else if l.all Char.isDigit then
    some (l.foldl (fun a c => a * 10 + (c.toNat - 48)) 0)
  else none

/-- Embedding of Rust's FromStr for a signed integer type (an optional
single leading sign byte followed by one or more ASCII digits); the
target type is modelled as the unbounded integers, adequate for every
value appearing in the claims. -/
def parse_int : List Char → Option Int
  | [] => none
  | c :: ds =>
    if c == '+' then (parse_digits ds).map fun n => (n : Int)
    else if c == '-' then (parse_digits ds).map fun n => -(n : Int)
    else (parse_digits (c :: ds)).map fun n => (n : Int)

/-- Embedding of s[i..j].parse_uw::<T>() for signed T: parse-then-unwrap.
The unwrap panic is modelled by the default 0; the lemma
ints_next_tok_parses below shows this default is unreachable on every
token produced by the scanner, so the model agrees with the code on all
non-panicking executions. -/
def parse_int_uw (l : List Char) : Int :=
  (parse_int l).getD 0

/-- Embedding of s[i..j].parse_uw::<T>() for unsigned T, as in
parse_int_uw; the lemma uints_next_tok_parses shows the default 0 is
unreachable on scanner tokens. -/
def parse_nat_uw (l : List Char) : Nat :=
  (parse_digits l).getD 0

/-- Embedding of one call to Ints::next (parse.rs lines 498-522): the
yielded item, paired with the iterator state self.s after the call.
When the scan finds no token the code returns None without assigning
self.s, so the state component is the unchanged input. -/
def Ints.next (s : List Char) : Option Int × List Char :=
  match ints_next_tok s with
  | none => (none, s)
  | some (tok, rem) => (some (parse_int_uw tok), rem)

/-- Embedding of one call to UInts::next (parse.rs lines 538-552). -/
def UInts.next (s : List Char) : Option Nat × List Char :=
  match uints_next_tok s with
  | none => (none, s)
  | some (tok, rem) => (some (parse_nat_uw tok), rem)

/-- Results of n successive Ints::next calls on iterator state s. -/
def ints_run : Nat → List Char → List (Option Int)
  | 0, _ => []
  | n + 1, s =>
    let r := Ints.next s
    r.1 :: ints_run n r.2

/-- Results of n successive UInts::next calls on iterator state s. -/
def uints_run : Nat → List Char → List (Option Nat)
  | 0, _ => []
  | n + 1, s =>
    let r := UInts.next s
    r.1 :: uints_run n r.2

/-- Embedding of Rust str::find with a string pattern: the index of the
first occurrence of pat in s, or none. -/
def strFind (pat : List Char) : List Char → Option Nat
  | [] => if pat.isPrefixOf ([] : List Char) then some 0 else none
  | c :: rest =>
    if pat.isPrefixOf (c :: rest) then some 0
    else (strFind pat rest).map (· + 1)

/-- Embedding of Rust str::split_once: the slices strictly before and
strictly after the first occurrence of delim. -/
def split_once (s delim : List Char) : Option (List Char × List Char) :=
  (strFind delim s).map fun i => (s.take i, s.drop (i + delim.length))

/-- Embedding of Parser::skip (parse.rs lines 682-685): self.inner is
advanced past the first n bytes and a copy of the post-advance state is
returned; the pair is (mutated self, returned clone). The slice
self.inner[n..] panics when fewer than n bytes remain. -/
def Parser.skip (p : List Char) (n : Nat) : Option (List Char × List Char) :=
  if n ≤ p.length then some (p.drop n, p.drop n) else none

/-- Embedding of Parser::take (parse.rs lines 705-709): the pair is
(returned first-n-bytes slice, mutated self). -/
def Parser.take (p : List Char) (n : Nat) : Option (List Char × List Char) :=
  if n ≤ p.length then some (p.take n, p.drop n) else none

/-- Embedding of Parser::rest (parse.rs lines 724-726). -/
def Parser.rest (p : List Char) : List Char :=
  p

/-- Embedding of Parser::before (parse.rs lines 748-755): split_once on
the suffix delimiter; the pair is (returned slice, mutated self). -/
def Parser.before (p suf : List Char) : Option (List Char × List Char) :=
  split_once p suf

/-- Embedding of Parser::after (parse.rs lines 773-780): everything after
the end of the first occurrence of pre, consuming the parser. -/
def Parser.after (p pre : List Char) : Option (List Char) :=
  (strFind pre p).map fun i => p.drop (i + pre.length)

/-- Embedding of Parser::between (parse.rs lines 798-803): after on the
current cursor, then before on the result. -/
def Parser.between (p pre suf : List Char) : Option (List Char × List Char) :=
  match Parser.after p pre with
  | none => none
  | some p2 => Parser.before p2 suf

/-- Embedding of str::try_between (parse.rs lines 183-188). -/
def try_between (s pre post : List Char) : Option (List Char) :=
  (strFind pre s).map fun start0 =>
    let start := start0 + pre.length
    let rest := s.drop start
    let stop := (strFind post rest).getD rest.length
    rest.take stop

/-- Canonical forward sequence used to state the collect_n claim: pulling
from a list, as Rust's into_iter on a collection does. -/
def listStep {α : Type} : List α → Option α × List α
  | [] => (none, [])
  | a :: l => (some a, l)

/-- Embedding of the array-building expression [(); N].map(|_| self.next())
in IterUnwrap::collect_n (parse.rs line 599): the step function is called
exactly n times, in order, threading the iterator state. -/
def collect_opts {σ α : Type} (step : σ → Option α × σ) : Nat → σ → List (Option α) × σ
  | 0, st => ([], st)
  | n + 1, st =>
    let r := step st
    let tl := collect_opts step n r.2
    (r.1 :: tl.1, tl.2)

/-- Embedding of IterUnwrap::collect_n (parse.rs lines 598-606): call next
n times, panic (modelled as none) when any result is None, otherwise
unwrap each element in order. -/
def collect_n {σ α : Type} (step : σ → Option α × σ) (n : Nat) (st : σ) :
    Option (List α) × σ :=
  let arr := collect_opts step n st
  (if arr.1.all Option.isSome then some (arr.1.filterMap id) else none, arr.2)

/-- Specification-side notion of a valid signed integer token: an optional
single sign byte immediately followed by one or more ASCII digits. -/
def int_token : List Char → Bool
  | [] => false
  | c :: ds =>
    if c == '-' || c == '+' then !ds.isEmpty && ds.all Char.isDigit
    else (c :: ds).all Char.isDigit

/-! Helper lemmas about the embedding. -/

theorem all_getLastD {p : Char → Bool} :
    ∀ (l : List Char) (d : Char), l.all p = true → p d = true → p (l.getLastD d) = true
  | [], _, _, hd => hd
  | a :: l, d, h, _ => by
    rw [List.getLastD_cons]
    rw [List.all_cons, Bool.and_eq_true] at h
    exact all_getLastD l a h.2 h.1

theorem all_takeWhile (p : Char → Bool) (l : List Char) :
    (l.takeWhile p).all p = true := by
  rw [List.all_eq_true]
  intro a ha
  exact List.mem_takeWhile_imp ha

theorem takeWhile_head_mem {p : Char → Bool} {l : List Char} {d : Char} {ds : List Char}
    (h : l.takeWhile p = d :: ds) : d ∈ l ∧ p d = true := by
  cases l with
  | nil => simp at h
  | cons a l =>
    rw [List.takeWhile_cons] at h
    by_cases hp : p a = true
    · rw [if_pos hp] at h
      cases h
      exact ⟨List.mem_cons_self .., hp⟩
    · rw [if_neg hp] at h
      cases h

theorem parse_int_ne_none_of_token (ch : Char) (run : List Char)
    (hds : is_digit_or_sign ch = true)
    (hrun : run.all Char.isDigit = true)
    (htest : ((ch :: run).getLastD ' ').isDigit = true) :
    ¬ parse_int (ch :: run) = none := by
  by_cases hp : (ch == '+') = true
  · rw [eq_of_beq hp] at htest ⊢
    cases run with
    | nil => exact absurd htest (by decide)
    | cons d ds => simp [parse_int, parse_digits, hrun]
  · by_cases hm : (ch == '-') = true
    · rw [eq_of_beq hm] at htest ⊢
      cases run with
      | nil => exact absurd htest (by decide)
      | cons d ds => simp [parse_int, parse_digits, hrun]
    · have hd : ch.isDigit = true := by
        unfold is_digit_or_sign at hds
        rcases Bool.or_eq_true_iff.mp hds with h | h
        · rcases Bool.or_eq_true_iff.mp h with h | h
          · exact h
          · exact absurd h hm
        · exact absurd h hp
      simp [parse_int, hp, hm, parse_digits, List.all_cons, hd, hrun]

theorem uints_tok_parses (ch : Char) (run : List Char)
    (hch : ch.isDigit = true) (hrun : run.all Char.isDigit = true) :
    ¬ parse_digits (ch :: run) = none := by
  simp [parse_digits, List.all_cons, hch, hrun]

theorem ints_next_tok_eq_none_iff (s : List Char) :
    ints_next_tok s = none ↔ s.all (fun c => !c.isDigit) = true := by
  induction s with
  | nil => simp [ints_next_tok]
  | cons ch rest ih =>
    by_cases hds : is_digit_or_sign ch = true
    · simp only [ints_next_tok, hds, if_true]
      by_cases hd : ch.isDigit = true
      · have htest : ((ch :: rest.takeWhile Char.isDigit).getLastD ' ').isDigit = true := by
          rw [List.getLastD_cons]
          exact all_getLastD _ ch (all_takeWhile _ _) hd
        rw [if_pos htest]
        simp [List.all_cons, hd]
      · cases hrun : rest.takeWhile Char.isDigit with
        | nil =>
          have htest : (([ch] : List Char).getLastD ' ').isDigit = false := by
            rw [List.getLastD_cons, List.getLastD_nil]
            exact Bool.eq_false_iff.mpr hd
          rw [htest]
          simp only [Bool.false_eq_true, if_false]
          rw [ih, List.all_cons]
          simp [Bool.eq_false_iff.mpr hd]
        | cons d ds =>
          obtain ⟨hmem, hdd⟩ := takeWhile_head_mem hrun
          have htest : ((ch :: d :: ds).getLastD ' ').isDigit = true := by
            rw [List.getLastD_cons, List.getLastD_cons]
            have hall := all_takeWhile Char.isDigit rest
            rw [hrun, List.all_cons, Bool.and_eq_true] at hall
            exact all_getLastD _ d hall.2 hall.1
          rw [if_pos htest]
          have hrestall : rest.all (fun c => !c.isDigit) = false := by
            rw [Bool.eq_false_iff]
            intro hall
            have := List.all_eq_true.mp hall d hmem
            rw [hdd] at this
            exact absurd this (by decide)
          simp [List.all_cons, hrestall]
    · simp only [ints_next_tok, if_neg hds]
      have hd : ch.isDigit = false := by
        rw [Bool.eq_false_iff]
        intro hdig
        exact hds (by unfold is_digit_or_sign; rw [hdig]; rfl)
      rw [ih, List.all_cons, hd]
      simp

theorem ints_next_tok_parses (s : List Char) :
    ∀ tok rem : List Char, ints_next_tok s = some (tok, rem) → ¬ parse_int tok = none := by
  induction s with
  | nil => intro tok rem h; simp [ints_next_tok] at h
  | cons ch rest ih =>
    intro tok rem h
    by_cases hds : is_digit_or_sign ch = true
    · simp only [ints_next_tok, hds, if_true] at h
      by_cases htest : ((ch :: rest.takeWhile Char.isDigit).getLastD ' ').isDigit = true
      · rw [if_pos htest] at h
        rw [Option.some.injEq, Prod.mk.injEq] at h
        obtain ⟨h1, _⟩ := h
        subst h1
        exact parse_int_ne_none_of_token ch _ hds (all_takeWhile _ _) htest
      · rw [if_neg htest] at h
        exact ih tok rem h
    · simp only [ints_next_tok] at h
      rw [if_neg hds] at h
      exact ih tok rem h

theorem uints_next_tok_parses (s : List Char) :
    ∀ tok rem : List Char, uints_next_tok s = some (tok, rem) → ¬ parse_digits tok = none := by
  induction s with
  | nil => intro tok rem h; simp [uints_next_tok] at h
  | cons ch rest ih =>
    intro tok rem h
    by_cases hd : ch.isDigit = true
    · simp only [uints_next_tok, hd, if_true] at h
      rw [Option.some.injEq, Prod.mk.injEq] at h
      obtain ⟨h1, _⟩ := h
      subst h1
      exact uints_tok_parses ch _ hd (all_takeWhile _ _)
    · simp only [uints_next_tok] at h
      rw [if_neg hd] at h
      exact ih tok rem h

theorem int_token_has_digit {tok : List Char} (h : int_token tok = true) :
    ∃ c ∈ tok, c.isDigit = true := by
  cases tok with
  | nil => simp [int_token] at h
  | cons c ds =>
    by_cases hs : (c == '-' || c == '+') = true
    · simp only [int_token] at h
      rw [if_pos hs, Bool.and_eq_true] at h
      cases ds with
      | nil => simp at h
      | cons e es =>
        have h2 := h.2
        rw [List.all_cons, Bool.and_eq_true] at h2
        exact ⟨e, by simp, h2.1⟩
    · simp only [int_token] at h
      rw [if_neg hs, List.all_cons, Bool.and_eq_true] at h
      exact ⟨c, by simp, h.1⟩

theorem token_exists_iff_any_digit (s : List Char) :
    (∃ a tok b : List Char, s = a ++ tok ++ b ∧ int_token tok = true)
      ↔ s.any Char.isDigit = true := by
  constructor
  · rintro ⟨a, tok, b, rfl, htok⟩
    obtain ⟨c, hc, hcd⟩ := int_token_has_digit htok
    rw [List.any_eq_true]
    exact ⟨c, by simp [hc], hcd⟩
  · intro h
    obtain ⟨c, hc, hcd⟩ := List.any_eq_true.mp h
    obtain ⟨a, b, rfl⟩ := List.append_of_mem hc
    refine ⟨a, [c], b, by simp, ?_⟩
    have hm : (c == '-') = false := by
      apply Bool.eq_false_iff.mpr
      intro hb
      rw [eq_of_beq hb] at hcd
      exact absurd hcd (by decide)
    have hp : (c == '+') = false := by
      apply Bool.eq_false_iff.mpr
      intro hb
      rw [eq_of_beq hb] at hcd
      exact absurd hcd (by decide)
    simp only [int_token, hm, hp]
    simp [hcd]

theorem filterMap_id_map_some {α : Type} (l : List α) :
    (l.map some).filterMap id = l := by
  induction l with
  | nil => rfl
  | cons a l ih => simp [ih]

theorem collect_opts_listStep_of_le {α : Type} (n : Nat) :
    ∀ l : List α, n ≤ l.length →
      collect_opts listStep n l = ((l.take n).map some, l.drop n) := by
  induction n with
  | zero => intro l _; simp [collect_opts]
  | succ n ih =>
    intro l h
    cases l with
    | nil => simp at h
    | cons a l =>
      simp only [collect_opts, listStep]
      rw [ih l (by simpa using h)]
      simp

theorem collect_opts_listStep_short {α : Type} (n : Nat) :
    ∀ l : List α, l.length < n →
      (collect_opts listStep n l).1.all Option.isSome = false := by
  induction n with
  | zero => intro l h; exact absurd h (Nat.not_lt_zero _)
  | succ n ih =>
    intro l h
    cases l with
    | nil => simp [collect_opts, listStep]
    | cons a l =>
      simp only [collect_opts, listStep, List.all_cons]
      rw [ih l (by simpa using h)]
      simp

/-! Claim theorems. -/

/-- C1 counterexample: on "++4, -+5, --6" the signed-integer sequence
does not yield 4, 5, 6 and then exhaustion.  The sign byte immediately
adjacent to the final digit run is a minus, so the third token is "-6"
and the third yielded value is -6, not 6. -/
theorem ints_iter_examples_counterexample :
    ints_run 4 (String.toList "++4, -+5, --6")
      = [some 4, some 5, some (-6), none]
    ∧ ints_run 4 (String.toList "++4, -+5, --6")
      ≠ [some 4, some 5, some 6, none] :=
  ⟨by decide, by decide⟩

/-- C1 (amended): scanning "15, -302 and +45." yields exactly 15, -302,
45 and then signals exhaustion; scanning "++4, -+5, --6" yields exactly
4, 5, -6 and then signals exhaustion, with only the sign byte
immediately adjacent to each digit run participating in the parsed value
and all earlier sign bytes treated as skippable noise. -/
theorem ints_iter_examples :
    ints_run 4 (String.toList "15, -302 and +45.")
      = [some 15, some (-302), some 45, none]
    ∧ ints_run 4 (String.toList "++4, -+5, --6")
      = [some 4, some 5, some (-6), none] :=
  ⟨by decide, by decide⟩

/-- C2: when pre first occurs at position p in s and suf first occurs at
position p + len pre + q at or after the end of that occurrence, between
returns the slice strictly between the two delimiters and leaves the
cursor just past the consumed suf. -/
theorem between_first_occurrences (s pre suf : List Char) (p q : Nat)
    (hp : strFind pre s = some p)
    (hq : strFind suf (s.drop (p + pre.length)) = some q) :
    Parser.between s pre suf
      = some ((s.drop (p + pre.length)).take q,
              s.drop (p + pre.length + q + suf.length)) := by
  have h1 : Parser.after s pre = some (s.drop (p + pre.length)) := by
    unfold Parser.after
    rw [hp, Option.map_some']
  have h2 : Parser.before (s.drop (p + pre.length)) suf
      = some ((s.drop (p + pre.length)).take q,
              (s.drop (p + pre.length)).drop (q + suf.length)) := by
    unfold Parser.before split_once
    rw [hq, Option.map_some']
  unfold Parser.between
  rw [h1]
  show Parser.before (s.drop (p + pre.length)) suf = _
  rw [h2, List.drop_drop]
  congr 3
  omega

/-- C2 witness: between "move " and " " on "move 10 from 271 to 3". -/
theorem between_first_occurrences_witness :
    Parser.between (String.toList "move 10 from 271 to 3")
        (String.toList "move ") (String.toList " ")
      = some (String.toList "10", String.toList "from 271 to 3") :=
  (between_first_occurrences (String.toList "move 10 from 271 to 3")
      (String.toList "move ") (String.toList " ") 0 2
      (by decide) (by decide)).trans (by decide)

/-- C5: when at most the remaining length is skipped, skip both mutates
the parser to the dropped suffix and returns a copy of that post-advance
state, and rest on that state returns the suffix of s from index n;
when more than the remaining length is requested, skip fails. -/
theorem skip_then_rest (s : List Char) (n : Nat) :
    (n ≤ s.length →
      Parser.skip s n = some (s.drop n, s.drop n)
        ∧ Parser.rest (s.drop n) = s.drop n)
    ∧ (s.length < n → Parser.skip s n = none) := by
  constructor
  · intro h
    unfold Parser.skip
    rw [if_pos h]
    exact ⟨rfl, rfl⟩
  · intro h
    unfold Parser.skip
    rw [if_neg (Nat.not_le.mpr h)]

/-- C5 witness: skipping 2 of "hello". -/
theorem skip_then_rest_witness :
    Parser.skip (String.toList "hello") 2
      = some ((String.toList "hello").drop 2, (String.toList "hello").drop 2) :=
  ((skip_then_rest (String.toList "hello") 2).1 (by decide)).1

/-- C8: under the shared boundary constraint, take returns exactly the
first n characters of the cursor, and the remaining suffix seen by rest
after take equals the one seen by rest after skip. -/
theorem take_rest_agrees_with_skip_rest (s : List Char) (n : Nat) (h : n ≤ s.length) :
    Parser.take s n = some (s.take n, s.drop n)
    ∧ (Parser.take s n).map (fun x => Parser.rest x.2)
        = (Parser.skip s n).map (fun x => Parser.rest x.1) := by
  simp [Parser.take, Parser.skip, if_pos h]

/-- C8 witness: taking 5 of "12345foo". -/
theorem take_rest_agrees_with_skip_rest_witness :
    Parser.take (String.toList "12345foo") 5
      = some ((String.toList "12345foo").take 5, (String.toList "12345foo").drop 5)
    ∧ (Parser.take (String.toList "12345foo") 5).map (fun x => Parser.rest x.2)
        = (Parser.skip (String.toList "12345foo") 5).map (fun x => Parser.rest x.1) :=
  take_rest_agrees_with_skip_rest (String.toList "12345foo") 5 (by decide)

/-- C9: try_between on the documented passport line yields the expected
slice for a present key and none for the absent key "cid:"; in general
an absent pre makes try_between return the non-fatal absence signal
none. -/
theorem try_between_examples_and_absent :
    try_between (String.toList "ecl:gry pid:860033327 eyr:2020")
        (String.toList "ecl:") (String.toList " ") = some (String.toList "gry")
    ∧ try_between (String.toList "ecl:gry pid:860033327 eyr:2020")
        (String.toList "cid:") (String.toList " ") = none
    ∧ ∀ s pre post : List Char, strFind pre s = none → try_between s pre post = none := by
  refine ⟨by decide, by decide, ?_⟩
  intro s pre post h
  unfold try_between
  rw [h]
  rfl

/-- C9 witness: an absent pre on a small concrete string. -/
theorem try_between_absent_witness :
    try_between (String.toList "abc") (String.toList "zzz") (String.toList " ") = none :=
  try_between_examples_and_absent.2.2 _ _ _ (by decide)

/-- C10: when pre first occurs at position p in s and post does not
occur in the suffix after that occurrence, try_between returns the
slice from just after pre to the end of s. -/
theorem try_between_missing_post (s pre post : List Char) (p : Nat)
    (hp : strFind pre s = some p)
    (hpost : strFind post (s.drop (p + pre.length)) = none) :
    try_between s pre post = some (s.drop (p + pre.length)) := by
  unfold try_between
  rw [hp, Option.map_some']
  simp only [hpost, Option.getD_none, List.take_length]

/-- C10 witness: post "z" never occurs after pre "a" in "abc". -/
theorem try_between_missing_post_witness :
    try_between (String.toList "abc") (String.toList "a") (String.toList "z")
      = some (String.toList "bc") :=
  (try_between_missing_post (String.toList "abc") (String.toList "a")
      (String.toList "z") 0 (by decide) (by decide)).trans (by decide)

/-- C3: the signed-integer sequence returns None exactly when no valid
integer token (an optional sign-adjacent sign byte followed by one or
more ASCII digits) occurs anywhere in the remaining cursor; a call that
returns None leaves the cursor unchanged, so every subsequent call also
returns None. -/
theorem ints_iter_none_iff_no_token (s : List Char) :
    ((Ints.next s).1 = none ↔
      ¬ ∃ a tok b : List Char, s = a ++ tok ++ b ∧ int_token tok = true)
    ∧ ((Ints.next s).1 = none → (Ints.next s).2 = s)
    ∧ ((Ints.next s).1 = none → Ints.next ((Ints.next s).2) = Ints.next s) := by
  have hfst : (Ints.next s).1 = none ↔ ints_next_tok s = none := by
    cases h : ints_next_tok s with
    | none => simp [Ints.next, h]
    | some p => cases p; simp [Ints.next, h]
  have hstate : ints_next_tok s = none → (Ints.next s).2 = s := by
    intro h
    simp [Ints.next, h]
  refine ⟨?_, ?_, ?_⟩
  · rw [hfst, ints_next_tok_eq_none_iff, token_exists_iff_any_digit]
    rw [List.all_eq_true, List.any_eq_true]
    constructor
    · intro hall ⟨c, hc, hcd⟩
      have := hall c hc
      rw [hcd] at this
      exact absurd this (by decide)
    · intro hnone c hc
      rw [Bool.not_eq_true']  -- turn goal (!isDigit c) = true into isDigit c = false
      rw [Bool.eq_false_iff]
      intro hcd
      exact hnone ⟨c, hc, hcd⟩
  · intro h
    exact hstate (hfst.mp h)
  · intro h
    rw [hstate (hfst.mp h)]

/-- C3 witness: a cursor with no digits anywhere. -/
theorem ints_iter_none_iff_no_token_witness :
    (¬ ∃ a tok b : List Char,
        String.toList "abc" = a ++ tok ++ b ∧ int_token tok = true)
    ∧ (Ints.next (String.toList "abc")).2 = String.toList "abc"
    ∧ Ints.next ((Ints.next (String.toList "abc")).2)
        = Ints.next (String.toList "abc") :=
  ⟨(ints_iter_none_iff_no_token (String.toList "abc")).1.mp (by decide),
   (ints_iter_none_iff_no_token (String.toList "abc")).2.1 (by decide),
   (ints_iter_none_iff_no_token (String.toList "abc")).2.2 (by decide)⟩

/-- C4: a sign byte followed by a non-digit byte or by end-of-string is
never a token start: the scan over the cursor with that sign at its head
behaves exactly as the scan over the cursor just after the sign, so the
sign-only candidate is neither yielded nor fatal. -/
theorem sign_only_candidate_skipped (c : Char) (rest : List Char)
    (hc : c = '-' ∨ c = '+')
    (hrest : ((rest.head?).getD ' ').isDigit = false) :
    ints_next_tok (c :: rest) = ints_next_tok rest
    ∧ (Ints.next (c :: rest)).1 = (Ints.next rest).1 := by
  have hcd : c.isDigit = false := by
    rcases hc with h | h <;> subst h <;> decide
  have hds : is_digit_or_sign c = true := by
    rcases hc with h | h <;> subst h <;> decide
  have hrun : rest.takeWhile Char.isDigit = [] := by
    cases rest with
    | nil => rfl
    | cons d ds =>
      simp only [List.head?_cons, Option.getD_some] at hrest
      simp [List.takeWhile_cons, hrest]
  have htok : ints_next_tok (c :: rest) = ints_next_tok rest := by
    simp only [ints_next_tok, hds, if_true, hrun]
    have htest : (([c] : List Char).getLastD ' ').isDigit = false := by
      rw [List.getLastD_cons, List.getLastD_nil]
      exact hcd
    rw [htest]
    simp
  refine ⟨htok, ?_⟩
  cases h : ints_next_tok rest with
  | none => simp [Ints.next, htok, h]
  | some p => cases p; simp [Ints.next, htok, h]

/-- C4 witness: a minus immediately followed by a non-digit. -/
theorem sign_only_candidate_skipped_witness :
    ints_next_tok ('-' :: String.toList "a5") = ints_next_tok (String.toList "a5")
    ∧ (Ints.next ('-' :: String.toList "a5")).1 = (Ints.next (String.toList "a5")).1 :=
  sign_only_candidate_skipped '-' (String.toList "a5") (Or.inl rfl) (by decide)

/-- C6: pulling N items into a fixed-size container from the canonical
list sequence fails exactly when the sequence yields fewer than N items;
on success it returns the first N items in order and the final sequence
state is positioned just after the N-th item, with exactly N items
consumed. -/
theorem collect_n_take_or_fail {α : Type} (l : List α) (n : Nat) :
    (n ≤ l.length → collect_n listStep n l = (some (l.take n), l.drop n))
    ∧ (l.length < n → (collect_n listStep n l).1 = none) := by
  constructor
  · intro h
    have hall : ((l.take n).map some).all Option.isSome = true := by
      rw [List.all_eq_true]
      intro a ha
      obtain ⟨x, _, rfl⟩ := List.mem_map.mp ha
      rfl
    simp only [collect_n]
    rw [collect_opts_listStep_of_le n l h, hall, if_pos rfl, filterMap_id_map_some]
  · intro h
    have hs := collect_opts_listStep_short n l h
    simp only [collect_n]
    rw [hs]
    simp

/-- C6 witness: three items succeed, two items fail. -/
theorem collect_n_take_or_fail_witness :
    collect_n listStep 3 [1, 2, 3] = (some [1, 2, 3], ([] : List Nat))
    ∧ (collect_n listStep 3 [1, 2]).1 = none :=
  ⟨((collect_n_take_or_fail [1, 2, 3] 3).1 (by decide)).trans (by decide),
   (collect_n_take_or_fail [1, 2] 3).2 (by decide)⟩

/-- C7: the unsigned-integer sequence yields exactly 15, 302, 45 and
then exhaustion on "15, -302 and +45.", and a sign byte at the head of
the cursor is skipped like any other non-digit noise regardless of what
follows it: the token scan from a sign byte equals the token scan from
just after it, so the yielded value is unaffected. -/
theorem uints_iter_ignores_signs :
    uints_run 4 (String.toList "15, -302 and +45.")
      = [some 15, some 302, some 45, none]
    ∧ ∀ rest : List Char,
        uints_next_tok ('-' :: rest) = uints_next_tok rest
        ∧ uints_next_tok ('+' :: rest) = uints_next_tok rest
        ∧ (UInts.next ('-' :: rest)).1 = (UInts.next rest).1
        ∧ (UInts.next ('+' :: rest)).1 = (UInts.next rest).1 := by
  refine ⟨by decide, ?_⟩
  intro rest
  have hm : uints_next_tok ('-' :: rest) = uints_next_tok rest := by
    simp only [uints_next_tok]
    rw [if_neg (by decide : ¬ Char.isDigit '-' = true)]
  have hp : uints_next_tok ('+' :: rest) = uints_next_tok rest := by
    simp only [uints_next_tok]
    rw [if_neg (by decide : ¬ Char.isDigit '+' = true)]
  refine ⟨hm, hp, ?_, ?_⟩
  · cases h : uints_next_tok rest with
    | none => simp [UInts.next, hm, h]
    | some p => cases p; simp [UInts.next, hm, h]
  · cases h : uints_next_tok rest with
    | none => simp [UInts.next, hp, h]
    | some p => cases p; simp [UInts.next, hp, h]
